import Mathlib

/-!
Verification of the privacy/security core of the interviewphase2 repository.

The Python modules under backend/security and backend/privacy are shallowly
embedded below.  Conventions of the embedding:

* Python dicts are association lists with unique keys, in insertion order.
* JSON values (the payloads of json.dumps / json.loads) are the inductive
  type JValue; JSON numbers are modelled as integers (float literals are not
  modelled and are treated as unparseable).
* Byte strings are modelled by provenance: a byte string is either the UTF-8
  encoding of a String or an opaque non-UTF-8 byte list, so that UTF-8
  decoding is exact.
* AES-256-GCM is modelled as an ideal authenticated-encryption scheme: a
  ciphertext is an opaque term recording the key, nonce, associated data and
  plaintext used to build it, and decryption succeeds exactly when key,
  nonce and associated data match the recorded ones.  base64 transport
  encoding (a bijection) is elided.
* SHA-256 is modelled as an injective (ideally collision-free) tagging
  function on strings.
* Nondeterministic inputs of the Python code (os.urandom nonces,
  datetime.utcnow timestamps, KMS-generated keys) are explicit parameters
  or explicit random streams.
* Exceptions are modelled with Option/Except: a none / .error result is a
  raised exception, in which case no state change is observed by the caller.
-/

/-- JSON values, as produced by json.dumps / consumed by json.loads.
Numbers are modelled as integers. -/
inductive JValue where
  | null : JValue
  | bool (b : Bool) : JValue
  | num (n : Int) : JValue
  | str (s : String) : JValue
  | arr (xs : List JValue) : JValue
  | obj (fs : List (String × JValue)) : JValue
deriving Repr

/-- Escape one character the way json.dumps does (quote and backslash only;
control-character escapes are not exercised by any claim). -/
def jsonEscChar (c : Char) : String :=
  if c = '\"' then "\\\"" else if c = '\\' then "\\\\" else String.singleton c

/-- Quote a string literal the way json.dumps does. -/
def jsonQuote (s : String) : String :=
  "\"" ++ String.join (s.toList.map jsonEscChar) ++ "\""

mutual

/-- Model of json.dumps with the default separators (", " and ": "),
printing object members in list order. -/
def jsonDumps : JValue → String
  | .null => "null"
  | .bool true => "true"
  | .bool false => "false"
  | .num n => toString n
  | .str s => jsonQuote s
  | .arr xs => "[" ++ jsonDumpsArr xs ++ "]"
  | .obj fs => "\x7b" ++ jsonDumpsObj fs ++ "\x7d"

/-- Comma-joined rendering of array elements. -/
def jsonDumpsArr : List JValue → String
  | [] => ""
  | [v] => jsonDumps v
  | v :: vs => jsonDumps v ++ ", " ++ jsonDumpsArr vs

/-- Comma-joined rendering of object members. -/
def jsonDumpsObj : List (String × JValue) → String
  | [] => ""
  | [(k, v)] => jsonQuote k ++ ": " ++ jsonDumps v
  | (k, v) :: ps => jsonQuote k ++ ": " ++ jsonDumps v ++ ", " ++ jsonDumpsObj ps

end

/-- Lexicographic comparison of key strings (by code point), used to model
the sort_keys=True option of json.dumps. -/
def strLeChars : List Char → List Char → Bool
  | [], _ => true
  | _ :: _, [] => false
  | a :: as, b :: bs =>
    if a.toNat < b.toNat then true
    else if b.toNat < a.toNat then false
    else strLeChars as bs

/-- String order used by sort_keys. -/
def strLe (a b : String) : Bool := strLeChars a.toList b.toList

/-- Insert one member into a key-sorted member list. -/
def insertByKey (p : String × JValue) : List (String × JValue) → List (String × JValue)
  | [] => [p]
  | q :: qs => if strLe p.1 q.1 then p :: q :: qs else q :: insertByKey p qs

/-- Sort object members by key (insertion sort), as sort_keys=True does. -/
def sortByKey : List (String × JValue) → List (String × JValue)
  | [] => []
  | p :: ps => insertByKey p (sortByKey ps)

/-- Left brace character (written via its code point). -/
def lbrace : Char := Char.ofNat 123

/-- Right brace character (written via its code point). -/
def rbrace : Char := Char.ofNat 125

/-- Whitespace characters skipped by the JSON parser. -/
def jsonIsWs (c : Char) : Bool :=
  c = ' ' || c = '\t' || c = '\n' || c = '\r'

/-- Skip leading JSON whitespace. -/
def jsonSkipWs : List Char → List Char
  | [] => []
  | c :: cs => if jsonIsWs c then jsonSkipWs cs else c :: cs

/-- Decimal digit test. -/
def jsonIsDigit (c : Char) : Bool := 48 ≤ c.toNat && c.toNat ≤ 57

/-- Split a leading run of digits from the rest. -/
def jsonTakeDigits : List Char → (List Char × List Char)
  | [] => ([], [])
  | c :: cs =>
    if jsonIsDigit c then
      let r := jsonTakeDigits cs
      (c :: r.1, r.2)
    else ([], c :: cs)

/-- Numeric value of a digit run. -/
def jsonDigitsToNat (ds : List Char) : Nat :=
  ds.foldl (fun acc c => acc * 10 + (c.toNat - 48)) 0

/-- Parse the body of a JSON string literal (after the opening quote),
handling the escapes produced by jsonEscChar plus the common ones. -/
def jsonParseStrBody : Nat → List Char → Option (String × List Char)
  | 0, _ => none
  | _, [] => none
  | fuel + 1, c :: cs =>
    if c = '\"' then some ("", cs)
    else if c = '\\' then
      match cs with
      | [] => none
      | e :: cs2 =>
        let dec : Option Char :=
          if e = '\"' then some '\"'
          else if e = '\\' then some '\\'
          else if e = '/' then some '/'
          else if e = 'n' then some '\n'
          else if e = 't' then some '\t'
          else if e = 'r' then some '\r'
          else none
        match dec with
        | none => none
        | some d =>
          match jsonParseStrBody fuel cs2 with
          | some (rest, rem) => some (String.singleton d ++ rest, rem)
          | none => none
    else
      match jsonParseStrBody fuel cs with
      | some (rest, rem) => some (String.singleton c ++ rest, rem)
      | none => none

mutual

/-- Fuel-indexed model of the json.loads value grammar (objects, arrays,
strings, integers, true/false/null; float and unicode-escape forms are not
modelled and yield a parse failure). -/
def jsonParseVal : Nat → List Char → Option (JValue × List Char)
  | 0, _ => none
  | fuel + 1, cs0 =>
    match jsonSkipWs cs0 with
    | [] => none
    | c :: rest =>
      if c = 'n' then
        match rest with
        | 'u' :: 'l' :: 'l' :: rem => some (.null, rem)
        | _ => none
      else if c = 't' then
        match rest with
        | 'r' :: 'u' :: 'e' :: rem => some (.bool true, rem)
        | _ => none
      else if c = 'f' then
        match rest with
        | 'a' :: 'l' :: 's' :: 'e' :: rem => some (.bool false, rem)
        | _ => none
      else if c = '\"' then
        match jsonParseStrBody fuel rest with
        | some (s, rem) => some (.str s, rem)
        | none => none
      else if c = '[' then
        match jsonSkipWs rest with
        | ']' :: rem => some (.arr [], rem)
        | _ => match jsonParseArrItems fuel rest with
               | some (xs, rem) => some (.arr xs, rem)
               | none => none
      else if c = lbrace then
        match jsonSkipWs rest with
        | d :: rem =>
          if d = rbrace then some (.obj [], rem)
          else
            match jsonParseObjItems fuel (d :: rem) with
            | some (fs, rem2) => some (.obj fs, rem2)
            | none => none
        | [] => none
      else if c = '-' then
        match jsonTakeDigits rest with
        | ([], _) => none
        | (ds, rem) =>
          match rem with
          | r :: _ =>
            if r = '.' || r = 'e' || r = 'E' then none
            else some (.num (-(jsonDigitsToNat ds : Int)), rem)
          | [] => some (.num (-(jsonDigitsToNat ds : Int)), rem)
      else if jsonIsDigit c then
        match jsonTakeDigits (c :: rest) with
        | (ds, rem) =>
          match rem with
          | r :: _ =>
            if r = '.' || r = 'e' || r = 'E' then none
            else some (.num (jsonDigitsToNat ds : Int), rem)
          | [] => some (.num (jsonDigitsToNat ds : Int), rem)
      else none

/-- Parse one or more comma-separated array elements then the closing bracket. -/
def jsonParseArrItems : Nat → List Char → Option (List JValue × List Char)
  | 0, _ => none
  | fuel + 1, cs =>
    match jsonParseVal fuel cs with
    | none => none
    | some (v, rem) =>
      match jsonSkipWs rem with
      | ',' :: rem2 =>
        match jsonParseArrItems fuel rem2 with
        | some (vs, rem3) => some (v :: vs, rem3)
        | none => none
      | ']' :: rem2 => some ([v], rem2)
      | _ => none

/-- Parse one or more comma-separated object members then the closing brace. -/
def jsonParseObjItems : Nat → List Char → Option (List (String × JValue) × List Char)
  | 0, _ => none
  | fuel + 1, cs =>
    match jsonSkipWs cs with
    | '\"' :: rest =>
      match jsonParseStrBody fuel rest with
      | none => none
      | some (k, rem) =>
        match jsonSkipWs rem with
        | ':' :: rem2 =>
          match jsonParseVal fuel rem2 with
          | none => none
          | some (v, rem3) =>
            match jsonSkipWs rem3 with
            | ',' :: rem4 =>
              match jsonParseObjItems fuel rem4 with
              | some (fs, rem5) => some ((k, v) :: fs, rem5)
              | none => none
            | d :: rem4 =>
              if d = rbrace then some ([(k, v)], rem4) else none
            | [] => none
        | _ => none
    | _ => none

end

/-- Model of json.loads: parse a whole string as one JSON value. -/
def jsonParse (s : String) : Option JValue :=
  match jsonParseVal (s.length + 1) s.toList with
  | some (v, rem) => if jsonSkipWs rem = [] then some v else none
  | none => none

/-- Byte strings, modelled by UTF-8 provenance: either the UTF-8 encoding of
a string, or an opaque byte list that is not valid UTF-8. -/
inductive PTBytes where
  | utf8 (s : String) : PTBytes
  | nonUtf8 (bs : List Nat) : PTBytes
deriving DecidableEq, Repr

/-- Model of bytes.decode, exact on the provenance representation. -/
def utf8Decode : PTBytes → Option String
  | .utf8 s => some s
  | .nonUtf8 _ => none

/-- Length of a modelled byte string (UTF-8 byte size for encoded text). -/
def ptBytesLen : PTBytes → Nat
  | .utf8 s => s.utf8ByteSize
  | .nonUtf8 bs => bs.length

/-- A Python value passed to encrypt_field or returned by decrypt_field:
either a bytes object or an ordinary (JSON-serializable) value.  A Python
str s is represented as pyval (JValue.str s). -/
inductive PlainValue where
  | bytes (b : PTBytes) : PlainValue
  | pyval (v : JValue) : PlainValue
deriving Repr

/-- The plaintext_bytes preparation of encrypt_field: bytes pass through,
str is UTF-8 encoded, any other value is JSON-serialized then encoded. -/
def serializePlain : PlainValue → PTBytes
  | .bytes b => b
  | .pyval (.str s) => .utf8 s
  | .pyval v => .utf8 (jsonDumps v)

/-- The result interpretation of decrypt_field: try UTF-8 decoding, then try
JSON parsing; fall back to the raw string, or to raw bytes. -/
def deserializePlain : PTBytes → PlainValue
  | .nonUtf8 bs => .bytes (.nonUtf8 bs)
  | .utf8 s =>
    match jsonParse s with
    | some v => .pyval v
    | none => .pyval (.str s)

/-- Python dict as an association list in insertion order with unique keys. -/
abbrev JDict := List (String × JValue)

/-- Model of dict item assignment: overwrite in place, else append. -/
def dictInsert (l : JDict) (k : String) (v : JValue) : JDict :=
  if l.any (fun p => p.1 = k) then
    l.map (fun p => if p.1 = k then (k, v) else p)
  else l ++ [(k, v)]

/-- Model of the Python dict merge (base entries first, extra overriding). -/
def dictMerge (base extra : JDict) : JDict :=
  extra.foldl (fun acc p => dictInsert acc p.1 p.2) base

/-- Serialization of an associated-data dict as done by both encrypt_field
and decrypt_field: json.dumps with sort_keys=True. -/
def aadSerialize (ad : JDict) : String :=
  jsonDumps (.obj (sortByKey ad))

/-- Ideal-model AES-GCM ciphertext: an opaque term recording key, nonce,
associated data (already serialized) and plaintext. -/
structure AEADCiphertext where
  key : List Nat
  nonce : Nat
  aad : String
  pt : PTBytes
deriving DecidableEq, Repr

/-- Ideal AEAD encryption (AESGCM.encrypt). -/
def aesgcmEncrypt (key : List Nat) (nonce : Nat) (pt : PTBytes) (aad : String) :
    AEADCiphertext :=
  ⟨key, nonce, aad, pt⟩

/-- Ideal AEAD decryption (AESGCM.decrypt): succeeds iff key, nonce and
associated data match the ones the ciphertext was built with; a mismatch is
the InvalidTag authentication failure. -/
def aesgcmDecrypt (key : List Nat) (nonce : Nat) (ct : AEADCiphertext) (aad : String) :
    Option PTBytes :=
  if ct.key = key ∧ ct.nonce = nonce ∧ ct.aad = aad then some ct.pt else none

/-- The dict returned by encrypt_field (base64 transport encoding elided). -/
structure EncryptedValue where
  ciphertext : AEADCiphertext
  nonce : Nat
  key_version : String
  algorithm : String
  associated_data : JDict
  encrypted_at : Nat
deriving Repr

/-- Model of the timestamp isoformat string. -/
def isoformat (ts : Nat) : String := toString ts

/-- Model of encrypt_field.  The ambient state is explicit: getKey is the
key store view (get_data_key), kv the key version used (the current version
when the caller passes none), ts the utcnow timestamp and nonce the
os.urandom draw. -/
def encrypt_field (getKey : String → List Nat) (kv : String) (ts : Nat) (nonce : Nat)
    (plaintext : PlainValue) (associated_data : JDict) : EncryptedValue :=
  let aadDict : JDict :=
    dictMerge [("timestamp", .str (isoformat ts)), ("key_version", .str kv)]
      associated_data
  let aadBytes := aadSerialize aadDict
  { ciphertext := aesgcmEncrypt (getKey kv) nonce (serializePlain plaintext) aadBytes
    nonce := nonce
    key_version := kv
    algorithm := "AES-256-GCM"
    associated_data := aadDict
    encrypted_at := ts }

/-- Model of decrypt_field.  A none result is the raised RuntimeError (the
caller observes no partial plaintext). -/
def decrypt_field (getKey : String → List Nat) (encrypted_data : EncryptedValue)
    (expected_key_version : Option String) : Option PlainValue :=
  match expected_key_version with
  | some expected =>
    if encrypted_data.key_version ≠ expected then none
    else
      match aesgcmDecrypt (getKey encrypted_data.key_version) encrypted_data.nonce
        encrypted_data.ciphertext (aadSerialize encrypted_data.associated_data) with
      | some pt => some (deserializePlain pt)
      | none => none
  | none =>
    match aesgcmDecrypt (getKey encrypted_data.key_version) encrypted_data.nonce
      encrypted_data.ciphertext (aadSerialize encrypted_data.associated_data) with
    | some pt => some (deserializePlain pt)
    | none => none

/-- A plaintext whose serialized form decrypt_field reinterprets faithfully:
non-UTF-8 bytes, strings that do not parse as JSON, and structured values
whose JSON serialization parses back to the same value.  (UTF-8 bytes come
back as text and JSON-parseable strings as their parsed value.) -/
def roundTripFaithful : PlainValue → Prop
  | .bytes (.nonUtf8 _) => True
  | .bytes (.utf8 _) => False
  | .pyval (.str s) => jsonParse s = none
  | .pyval v => jsonParse (jsonDumps v) = some v

/-- Claim C2 is false as stated: the plaintext string "42" does not round
trip, because decrypt_field re-parses the decrypted text as JSON and returns
the number 42 instead of the string "42". -/
theorem c2_roundtrip_counterexample :
    decrypt_field (fun _ => [0]) (encrypt_field (fun _ => [0]) "v1" 0 0
        (.pyval (.str "42")) []) none
      = some (.pyval (.num 42)) ∧
    (PlainValue.pyval (JValue.num 42) = PlainValue.pyval (JValue.str "42") → False) := by
  refine ⟨rfl, ?_⟩
  intro h
  simp at h

/-- Claim C2 amended: decrypt_field(encrypt_field(P, A)) returns P for every
associated-data dict A and every plaintext P that is a non-UTF-8 byte
string, a string that does not parse as JSON, or a structured value whose
JSON serialization parses back to itself; a JSON-parseable string is instead
returned as its parsed value and UTF-8 bytes as their decoded text. -/
theorem c2_roundtrip (getKey : String → List Nat) (kv : String) (ts nonce : Nat)
    (P : PlainValue) (A : JDict) (h : roundTripFaithful P) :
    decrypt_field getKey (encrypt_field getKey kv ts nonce P A) none = some P := by
  cases P with
  | bytes b =>
    cases b with
    | utf8 s => exact absurd h (by simp [roundTripFaithful])
    | nonUtf8 bs =>
      simp [decrypt_field, encrypt_field, aesgcmEncrypt, aesgcmDecrypt,
        serializePlain, deserializePlain]
  | pyval v =>
    cases v with
    | str s =>
      have h2 : jsonParse s = none := h
      simp [decrypt_field, encrypt_field, aesgcmEncrypt, aesgcmDecrypt,
        serializePlain, deserializePlain, h2]
    | null =>
      have h2 : jsonParse (jsonDumps JValue.null) = some JValue.null := h
      simp [decrypt_field, encrypt_field, aesgcmEncrypt, aesgcmDecrypt,
        serializePlain, deserializePlain, h2]
    | bool b =>
      have h2 : jsonParse (jsonDumps (JValue.bool b)) = some (JValue.bool b) := h
      simp [decrypt_field, encrypt_field, aesgcmEncrypt, aesgcmDecrypt,
        serializePlain, deserializePlain, h2]
    | num n =>
      have h2 : jsonParse (jsonDumps (JValue.num n)) = some (JValue.num n) := h
      simp [decrypt_field, encrypt_field, aesgcmEncrypt, aesgcmDecrypt,
        serializePlain, deserializePlain, h2]
    | arr xs =>
      have h2 : jsonParse (jsonDumps (JValue.arr xs)) = some (JValue.arr xs) := h
      simp [decrypt_field, encrypt_field, aesgcmEncrypt, aesgcmDecrypt,
        serializePlain, deserializePlain, h2]
    | obj fs =>
      have h2 : jsonParse (jsonDumps (JValue.obj fs)) = some (JValue.obj fs) := h
      simp [decrypt_field, encrypt_field, aesgcmEncrypt, aesgcmDecrypt,
        serializePlain, deserializePlain, h2]

/-- Witness for c2_roundtrip at a concrete non-JSON string plaintext. -/
theorem c2_roundtrip_witness :
    decrypt_field (fun _ => [1]) (encrypt_field (fun _ => [1]) "v1" 5 7
        (.pyval (.str "hello")) [("session", .str "s1")]) none
      = some (.pyval (.str "hello")) :=
  c2_roundtrip (fun _ => [1]) "v1" 5 7 (.pyval (.str "hello"))
    [("session", .str "s1")] (by rfl)

/-- Claim C6: tamper detection.  For every nonzero-length plaintext and the
EncryptedValue ev it produces: replacing the stored nonce by any other
value, or the stored associated_data by any dict whose serialization is not
byte-identical, makes decrypt_field fail with an authentication error (none,
never a partial plaintext); a replacement ciphertext decrypts at all only if
it carries exactly the original key, nonce and serialized associated data
(in the ideal AEAD model this excludes every tampered ciphertext); and the
untampered value decrypts successfully. -/
theorem c6_tamper_detection (getKey : String → List Nat) (kv : String) (ts nonce : Nat)
    (P : PlainValue) (A : JDict)
    (_hP : 0 < ptBytesLen (serializePlain P)) :
    (∀ nonce2, nonce2 ≠ nonce →
        decrypt_field getKey
          { encrypt_field getKey kv ts nonce P A with nonce := nonce2 } none = none) ∧
    (∀ ad2, aadSerialize ad2 ≠
        aadSerialize (encrypt_field getKey kv ts nonce P A).associated_data →
        decrypt_field getKey
          { encrypt_field getKey kv ts nonce P A with associated_data := ad2 } none = none) ∧
    (∀ ct2, decrypt_field getKey
          { encrypt_field getKey kv ts nonce P A with ciphertext := ct2 } none ≠ none →
        ct2.key = getKey kv ∧ ct2.nonce = nonce ∧
        ct2.aad = aadSerialize (encrypt_field getKey kv ts nonce P A).associated_data) ∧
    decrypt_field getKey (encrypt_field getKey kv ts nonce P A) none
      = some (deserializePlain (serializePlain P)) := by
  refine ⟨?_, ?_, ?_, ?_⟩
  · intro nonce2 hne
    simp only [decrypt_field, encrypt_field, aesgcmEncrypt, aesgcmDecrypt]
    rw [if_neg]
    rintro ⟨-, h2, -⟩
    exact hne h2.symm
  · intro ad2 hne
    simp only [decrypt_field, encrypt_field, aesgcmEncrypt, aesgcmDecrypt]
    rw [if_neg]
    rintro ⟨-, -, h3⟩
    exact hne h3.symm
  · intro ct2 hne
    by_cases hc : ct2.key = getKey kv ∧ ct2.nonce = nonce ∧
        ct2.aad = aadSerialize (encrypt_field getKey kv ts nonce P A).associated_data
    · exact hc
    · exfalso
      apply hne
      simp only [decrypt_field, encrypt_field, aesgcmDecrypt]
      rw [if_neg]
      · intro hc2
        apply hc
        simpa [encrypt_field] using hc2
  · simp [decrypt_field, encrypt_field, aesgcmEncrypt, aesgcmDecrypt]

/-- Witness for c6_tamper_detection: a concrete one-byte non-UTF-8 plaintext
encrypts and decrypts back, and the tampered-nonce variant fails. -/
theorem c6_tamper_detection_witness :
    decrypt_field (fun _ => [3]) (encrypt_field (fun _ => [3]) "v1" 1 2
        (.bytes (.nonUtf8 [7])) []) none
      = some (.bytes (.nonUtf8 [7])) ∧
    decrypt_field (fun _ => [3])
      { encrypt_field (fun _ => [3]) "v1" 1 2 (.bytes (.nonUtf8 [7])) [] with
        nonce := 9 } none = none :=
  ⟨(c6_tamper_detection (fun _ => [3]) "v1" 1 2 (.bytes (.nonUtf8 [7])) []
      (by decide)).2.2.2,
   (c6_tamper_detection (fun _ => [3]) "v1" 1 2 (.bytes (.nonUtf8 [7])) []
      (by decide)).1 9 (by decide)⟩

/-- Per-field entry of the _encryption_metadata block. -/
structure FieldMeta where
  encrypted : Bool
  key_version : String
  encrypted_at : Nat
deriving DecidableEq, Repr

/-- The _encryption_metadata block written by encrypt_document_fields. -/
structure EncMetadata where
  encrypted_fields : List String
  field_metadata : List (String × FieldMeta)
  encrypted : Bool
  key_version : String
deriving DecidableEq, Repr

/-- A value stored in a document: a plain Python value, an encrypted-field
package, or the metadata block. -/
inductive DocValue where
  | val (p : PlainValue) : DocValue
  | enc (ev : EncryptedValue) : DocValue
  | meta (m : EncMetadata) : DocValue
deriving Repr

/-- A document: a Python dict, keys unique and in insertion order. -/
abbrev Doc := List (String × DocValue)

/-- The key list of a document. -/
def docKeys (d : Doc) : List String := d.map Prod.fst

/-- Dict lookup (document[k] / k in document). -/
def docGet : Doc → String → Option DocValue
  | [], _ => none
  | (k0, v0) :: ps, k => if k0 = k then some v0 else docGet ps k

/-- Dict assignment: replace in place, or append a new entry. -/
def docSet : Doc → String → DocValue → Doc
  | [], k, v => [(k, v)]
  | (k0, v0) :: ps, k, v =>
    if k0 = k then (k, v) :: ps else (k0, v0) :: docSet ps k v

/-- Dict deletion (del document[k]); none is the raised KeyError. -/
def docDel : Doc → String → Option Doc
  | [], _ => none
  | (k0, v0) :: ps, k =>
    if k0 = k then some ps
    else
      match docDel ps k with
      | some d => some ((k0, v0) :: d)
      | none => none

/-- Test for the Python None value. -/
def PlainValue.isNone : PlainValue → Bool
  | .pyval .null => true
  | _ => false

/-- Whether encrypt_document_fields encrypts field f of this document:
present with a non-null value. -/
def willEncrypt (document : Doc) (f : String) : Bool :=
  match docGet document f with
  | some (.val p) => !p.isNone
  | some _ => true
  | none => false

/-- The fields of F that encrypt_document_fields actually encrypts. -/
def encFieldsOf (document : Doc) (F : List String) : List String :=
  F.filter (fun f => willEncrypt document f)

/-- Loop body of encrypt_document_fields over the selected field names.
document is the original (unmodified) document the code reads values and
membership from; acc is the copied document being rewritten; idx counts
os.urandom draws.  A none result is a raised exception (KeyError on a
duplicated field name, or a value shape the model does not serialize). -/
def encryptFieldsGo (getKey : String → List Nat) (curVer : String) (ts : Nat)
    (nonces : Nat → Nat) (associated_data : JDict) (document : Doc) :
    List String → Nat → Doc → List (String × FieldMeta) →
    Option (Doc × List (String × FieldMeta))
  | [], _, acc, metas => some (acc, metas)
  | f :: fs, idx, acc, metas =>
    match docGet document f with
    | some (.val p) =>
      if p.isNone then
        encryptFieldsGo getKey curVer ts nonces associated_data document fs idx acc metas
      else
        let fieldAad := dictMerge [("field_name", .str f)] associated_data
        let ev := encrypt_field getKey curVer ts (nonces idx) p fieldAad
        let acc1 := docSet acc ("_encrypted_" ++ f) (.enc ev)
        match docDel acc1 f with
        | some acc2 =>
          encryptFieldsGo getKey curVer ts nonces associated_data document fs (idx + 1)
            acc2 (metas ++ [(f, ⟨true, curVer, ts⟩)])
        | none => none
    | some _ => none
    | none =>
      encryptFieldsGo getKey curVer ts nonces associated_data document fs idx acc metas

/-- Model of encrypt_document_fields.  curVer is the key store's current
version, ts the utcnow timestamp and nonces the os.urandom stream. -/
def encrypt_document_fields (getKey : String → List Nat) (curVer : String) (ts : Nat)
    (nonces : Nat → Nat) (document : Doc) (fields_to_encrypt : List String)
    (associated_data : JDict) : Option Doc :=
  match encryptFieldsGo getKey curVer ts nonces associated_data document
      fields_to_encrypt 0 document [] with
  | some (encDoc, metas) =>
    some (docSet encDoc "_encryption_metadata"
      (.meta { encrypted_fields := metas.map Prod.fst
               field_metadata := metas
               encrypted := true
               key_version := curVer }))
  | none => none

/-- Loop body of decrypt_document_fields.  encDocOrig is the original
encrypted document the code reads the packages from; encFields the
encrypted_fields list of its metadata; acc the copied document being
rewritten. -/
def decryptFieldsGo (getKey : String → List Nat) (encDocOrig : Doc)
    (encFields : List String) : List String → Doc → Option Doc
  | [], acc => some acc
  | f :: fs, acc =>
    if f ∈ encFields then
      match docGet encDocOrig ("_encrypted_" ++ f) with
      | some (.enc ev) =>
        match decrypt_field getKey ev none with
        | some v =>
          match docDel (docSet acc f (.val v)) ("_encrypted_" ++ f) with
          | some acc2 => decryptFieldsGo getKey encDocOrig encFields fs acc2
          | none => none
        | none => none
      | some _ => none
      | none => decryptFieldsGo getKey encDocOrig encFields fs acc
    else decryptFieldsGo getKey encDocOrig encFields fs acc

/-- Model of decrypt_document_fields (fields_to_decrypt none selects all
encrypted fields).  Documents without the metadata key are returned
unchanged; metadata blocks of a shape other than the one written by
encrypt_document_fields are not modelled. -/
def decrypt_document_fields (getKey : String → List Nat) (encrypted_document : Doc)
    (fields_to_decrypt : Option (List String)) : Option Doc :=
  match docGet encrypted_document "_encryption_metadata" with
  | none => some encrypted_document
  | some (.meta m) =>
    decryptFieldsGo getKey encrypted_document m.encrypted_fields
      (fields_to_decrypt.getD m.encrypted_fields) encrypted_document
  | some _ => none



theorem docGet_mem_keys (d : Doc) (k : String) (dv : DocValue)
    (h : docGet d k = some dv) : k ∈ docKeys d := by
  induction d with
  | nil => simp [docGet] at h
  | cons p ps ih =>
    obtain ⟨k0, v0⟩ := p
    by_cases hk : k0 = k
    · simp [docKeys, hk]
    · simp only [docGet, if_neg hk] at h
      simp only [docKeys, List.map_cons, List.mem_cons]
      exact Or.inr (ih h)

theorem docGet_docSet_self (d : Doc) (k : String) (v : DocValue) :
    docGet (docSet d k v) k = some v := by
  induction d with
  | nil => simp [docSet, docGet]
  | cons p ps ih =>
    obtain ⟨k0, v0⟩ := p
    by_cases h : k0 = k
    · simp [docSet, docGet, h]
    · simp [docSet, docGet, h, ih]

theorem docGet_docSet_ne (d : Doc) (k x : String) (v : DocValue) (hx : x ≠ k) :
    docGet (docSet d k v) x = docGet d x := by
  have hkx : ¬ k = x := fun h => hx h.symm
  induction d with
  | nil => simp [docSet, docGet, hkx]
  | cons p ps ih =>
    obtain ⟨k0, v0⟩ := p
    by_cases h2 : k0 = x
    · subst h2
      have hk : ¬ k0 = k := fun h => hx (h.symm ▸ rfl)
      simp [docSet, docGet, hk]
    · by_cases h : k0 = k
      · subst h
        simp [docSet, docGet, h2]
      · simp [docSet, docGet, h, h2, ih]

theorem docDel_of_member (d : Doc) (k : String) (dv : DocValue)
    (h : docGet d k = some dv) : ∃ d2, docDel d k = some d2 := by
  induction d with
  | nil => simp [docGet] at h
  | cons p ps ih =>
    obtain ⟨k0, v0⟩ := p
    by_cases hk : k0 = k
    · exact ⟨ps, by simp [docDel, hk]⟩
    · simp only [docGet, if_neg hk] at h
      obtain ⟨d2, hd2⟩ := ih h
      exact ⟨(k0, v0) :: d2, by simp [docDel, hk, hd2]⟩


theorem docGet_docDel_ne (d : Doc) (k x : String) (hx : x ≠ k) :
    ∀ d2, docDel d k = some d2 → docGet d2 x = docGet d x := by
  induction d with
  | nil => intro d2 hdel; simp [docDel] at hdel
  | cons p ps ih =>
    obtain ⟨k0, v0⟩ := p
    intro d2 hdel
    by_cases hk : k0 = k
    · subst hk
      have hred : docDel ((k0, v0) :: ps) k0 = some ps := by simp [docDel]
      rw [hred] at hdel
      injection hdel with hdel2
      subst hdel2
      have hkx : ¬ k0 = x := fun h => hx h.symm
      simp [docGet, hkx]
    · simp only [docDel, if_neg hk] at hdel
      cases hrec : docDel ps k with
      | none => rw [hrec] at hdel; cases hdel
      | some d3 =>
        rw [hrec] at hdel
        injection hdel with hdel2
        subst hdel2
        by_cases h2 : k0 = x
        · simp [docGet, h2]
        · simp [docGet, h2, ih d3 hrec]

theorem docGet_docDel_self (d : Doc) (k : String) (hnd : (docKeys d).Nodup) :
    ∀ d2, docDel d k = some d2 → docGet d2 k = none := by
  induction d with
  | nil => intro d2 hdel; simp [docDel] at hdel
  | cons p ps ih =>
    obtain ⟨k0, v0⟩ := p
    simp only [docKeys, List.map_cons, List.nodup_cons] at hnd
    intro d2 hdel
    by_cases hk : k0 = k
    · subst hk
      have hred : docDel ((k0, v0) :: ps) k0 = some ps := by simp [docDel]
      rw [hred] at hdel
      injection hdel with hdel2
      subst hdel2
      cases hget : docGet ps k0 with
      | none => rfl
      | some dv => exact absurd (docGet_mem_keys ps k0 dv hget) hnd.1
    · simp only [docDel, if_neg hk] at hdel
      cases hrec : docDel ps k with
      | none => rw [hrec] at hdel; cases hdel
      | some d3 =>
        rw [hrec] at hdel
        injection hdel with hdel2
        subst hdel2
        simp [docGet, hk, ih hnd.2 d3 hrec]

theorem docKeys_docSet_mem (d : Doc) (k x : String) (v : DocValue) :
    x ∈ docKeys (docSet d k v) → x ∈ docKeys d ∨ x = k := by
  induction d with
  | nil =>
    intro h
    simp [docSet, docKeys] at h
    exact Or.inr h
  | cons p ps ih =>
    obtain ⟨k0, v0⟩ := p
    intro h
    by_cases hk : k0 = k
    · subst hk
      have hred : docSet ((k0, v0) :: ps) k0 v = (k0, v) :: ps := by simp [docSet]
      rw [hred] at h
      simp only [docKeys, List.map_cons, List.mem_cons] at h
      rcases h with h | h
      · exact Or.inr h
      · refine Or.inl ?_
        simp only [docKeys, List.map_cons, List.mem_cons]
        exact Or.inr h
    · simp only [docSet, if_neg hk, docKeys, List.map_cons, List.mem_cons] at h
      rcases h with h | h
      · refine Or.inl ?_
        simp only [docKeys, List.map_cons, List.mem_cons]
        exact Or.inl h
      · rcases ih h with h2 | h2
        · refine Or.inl ?_
          simp only [docKeys, List.map_cons, List.mem_cons]
          exact Or.inr h2
        · exact Or.inr h2

theorem docKeys_docSet_nodup (d : Doc) (k : String) (v : DocValue)
    (hnd : (docKeys d).Nodup) : (docKeys (docSet d k v)).Nodup := by
  induction d with
  | nil => simp [docSet, docKeys]
  | cons p ps ih =>
    obtain ⟨k0, v0⟩ := p
    simp only [docKeys, List.map_cons, List.nodup_cons] at hnd
    by_cases h : k0 = k
    · subst h
      have hred : docSet ((k0, v0) :: ps) k0 v = (k0, v) :: ps := by simp [docSet]
      rw [hred]
      simp only [docKeys, List.map_cons, List.nodup_cons]
      exact hnd
    · simp only [docSet, if_neg h, docKeys, List.map_cons, List.nodup_cons]
      refine ⟨?_, ih hnd.2⟩
      intro hmem
      rcases docKeys_docSet_mem ps k k0 v hmem with h2 | h2
      · exact hnd.1 h2
      · exact h h2

theorem docKeys_docDel_mem (d : Doc) (k x : String) :
    ∀ d2, docDel d k = some d2 → x ∈ docKeys d2 → x ∈ docKeys d := by
  induction d with
  | nil => intro d2 hdel; simp [docDel] at hdel
  | cons p ps ih =>
    obtain ⟨k0, v0⟩ := p
    intro d2 hdel hmem
    by_cases hk : k0 = k
    · subst hk
      have hred : docDel ((k0, v0) :: ps) k0 = some ps := by simp [docDel]
      rw [hred] at hdel
      injection hdel with hdel2
      subst hdel2
      simp only [docKeys, List.map_cons, List.mem_cons]
      exact Or.inr hmem
    · simp only [docDel, if_neg hk] at hdel
      cases hrec : docDel ps k with
      | none => rw [hrec] at hdel; cases hdel
      | some d3 =>
        rw [hrec] at hdel
        injection hdel with hdel2
        subst hdel2
        simp only [docKeys, List.map_cons, List.mem_cons] at hmem ⊢
        rcases hmem with hmem | hmem
        · exact Or.inl hmem
        · exact Or.inr (ih d3 hrec hmem)

theorem docKeys_docDel_nodup (d : Doc) (k : String) (hnd : (docKeys d).Nodup) :
    ∀ d2, docDel d k = some d2 → (docKeys d2).Nodup := by
  induction d with
  | nil => intro d2 hdel; simp [docDel] at hdel
  | cons p ps ih =>
    obtain ⟨k0, v0⟩ := p
    simp only [docKeys, List.map_cons, List.nodup_cons] at hnd
    intro d2 hdel
    by_cases hk : k0 = k
    · subst hk
      have hred : docDel ((k0, v0) :: ps) k0 = some ps := by simp [docDel]
      rw [hred] at hdel
      injection hdel with hdel2
      subst hdel2
      exact hnd.2
    · simp only [docDel, if_neg hk] at hdel
      cases hrec : docDel ps k with
      | none => rw [hrec] at hdel; cases hdel
      | some d3 =>
        rw [hrec] at hdel
        injection hdel with hdel2
        subst hdel2
        simp only [docKeys, List.map_cons, List.nodup_cons]
        exact ⟨fun hmem => hnd.1 (docKeys_docDel_mem ps k k0 d3 hrec hmem), ih hnd.2 d3 hrec⟩

theorem encName_inj (a b : String) (h : "_encrypted_" ++ a = "_encrypted_" ++ b) :
    a = b := by
  have h2 : ("_encrypted_" ++ a).data = ("_encrypted_" ++ b).data :=
    congrArg String.data h
  rw [String.data_append, String.data_append] at h2
  exact String.ext (List.append_cancel_left h2)

theorem encName_ne_meta (f : String) :
    ("_encrypted_" ++ f) ≠ "_encryption_metadata" := by
  intro h
  have h2 : ("_encrypted_" ++ f).data = "_encryption_metadata".data :=
    congrArg String.data h
  rw [String.data_append] at h2
  have hpre : "_encrypted_".data = ['_', 'e', 'n', 'c', 'r', 'y', 'p', 't', 'e', 'd', '_'] := rfl
  rw [hpre] at h2
  have hmeta : "_encryption_metadata".data
      = ['_', 'e', 'n', 'c', 'r', 'y', 'p', 't', 'i', 'o', 'n', '_',
         'm', 'e', 't', 'a', 'd', 'a', 't', 'a'] := rfl
  rw [hmeta] at h2
  simp at h2

theorem decrypt_encrypt_field (getKey : String → List Nat) (kv : String) (ts n : Nat)
    (p : PlainValue) (ad : JDict) :
    decrypt_field getKey (encrypt_field getKey kv ts n p ad) none
      = some (deserializePlain (serializePlain p)) := by
  simp [decrypt_field, encrypt_field, aesgcmEncrypt, aesgcmDecrypt]

theorem deserialize_serialize_faithful (p : PlainValue) (h : roundTripFaithful p) :
    deserializePlain (serializePlain p) = p := by
  cases p with
  | bytes b =>
    cases b with
    | utf8 s => exact absurd h (by simp [roundTripFaithful])
    | nonUtf8 bs => simp [serializePlain, deserializePlain]
  | pyval v =>
    cases v with
    | str s =>
      have h2 : jsonParse s = none := h
      simp [serializePlain, deserializePlain, h2]
    | null =>
      have h2 : jsonParse (jsonDumps JValue.null) = some JValue.null := h
      simp [serializePlain, deserializePlain, h2]
    | bool b =>
      have h2 : jsonParse (jsonDumps (JValue.bool b)) = some (JValue.bool b) := h
      simp [serializePlain, deserializePlain, h2]
    | num n =>
      have h2 : jsonParse (jsonDumps (JValue.num n)) = some (JValue.num n) := h
      simp [serializePlain, deserializePlain, h2]
    | arr xs =>
      have h2 : jsonParse (jsonDumps (JValue.arr xs)) = some (JValue.arr xs) := h
      simp [serializePlain, deserializePlain, h2]
    | obj fs =>
      have h2 : jsonParse (jsonDumps (JValue.obj fs)) = some (JValue.obj fs) := h
      simp [serializePlain, deserializePlain, h2]


theorem encryptFieldsGo_spec (getKey : String → List Nat) (curVer : String) (ts : Nat)
    (nonces : Nat → Nat) (A : JDict) (D : Doc) :
    ∀ (fs : List String) (idx : Nat) (acc : Doc) (metas : List (String × FieldMeta)),
    (docKeys acc).Nodup →
    fs.Nodup →
    (∀ f ∈ fs, ∀ g : String, ("_encrypted_" ++ g) ≠ f) →
    (∀ f ∈ fs, ∀ dv, docGet D f = some dv → ∃ p, dv = DocValue.val p) →
    (∀ f ∈ fs, docGet acc f = docGet D f) →
    ∃ accEnd,
      encryptFieldsGo getKey curVer ts nonces A D fs idx acc metas
        = some (accEnd, metas ++ (fs.filter (fun f => willEncrypt D f)).map
            (fun f => (f, ⟨true, curVer, ts⟩))) ∧
      (docKeys accEnd).Nodup ∧
      (∀ f ∈ fs, willEncrypt D f = true →
        docGet accEnd f = none ∧
        ∃ n p, docGet D f = some (DocValue.val p) ∧
          docGet accEnd ("_encrypted_" ++ f)
            = some (DocValue.enc (encrypt_field getKey curVer ts n p
                (dictMerge [("field_name", JValue.str f)] A)))) ∧
      (∀ f ∈ fs, willEncrypt D f = false → docGet accEnd f = docGet D f) ∧
      (∀ x : String, (∀ f ∈ fs, x ≠ f ∧ x ≠ "_encrypted_" ++ f) →
        docGet accEnd x = docGet acc x) := by
  intro fs
  induction fs with
  | nil =>
    intro idx acc metas hacc _ _ _ _
    refine ⟨acc, ?_, hacc, ?_, ?_, ?_⟩
    · simp [encryptFieldsGo]
    · intro f hf; simp at hf
    · intro f hf; simp at hf
    · intro x _; rfl
  | cons f fs ih =>
    intro idx acc metas hacc hnd hres hvals hagree
    have hndf : f ∉ fs := (List.nodup_cons.mp hnd).1
    have hndfs : fs.Nodup := (List.nodup_cons.mp hnd).2
    have hres_f : ∀ g : String, ("_encrypted_" ++ g) ≠ f :=
      hres f (List.mem_cons_self f fs)
    have hres_fs : ∀ f2 ∈ fs, ∀ g : String, ("_encrypted_" ++ g) ≠ f2 :=
      fun f2 h2 => hres f2 (List.mem_cons_of_mem f h2)
    have hvals_fs : ∀ f2 ∈ fs, ∀ dv, docGet D f2 = some dv → ∃ p, dv = DocValue.val p :=
      fun f2 h2 => hvals f2 (List.mem_cons_of_mem f h2)
    cases hget : docGet D f with
    | none =>
      have hwe : willEncrypt D f = false := by simp [willEncrypt, hget]
      have hgo : encryptFieldsGo getKey curVer ts nonces A D (f :: fs) idx acc metas
          = encryptFieldsGo getKey curVer ts nonces A D fs idx acc metas := by
        simp [encryptFieldsGo, hget]
      obtain ⟨accEnd, h1, h2, h3, h3b, h4⟩ :=
        ih idx acc metas hacc hndfs hres_fs hvals_fs
          (fun f2 h2 => hagree f2 (List.mem_cons_of_mem f h2))
      refine ⟨accEnd, ?_, h2, ?_, ?_, ?_⟩
      · rw [hgo, h1, List.filter_cons_of_neg (by simp [hwe])]
      · intro f2 hf2 hwe2
        rcases List.mem_cons.mp hf2 with hf2 | hf2
        · subst hf2; rw [hwe] at hwe2; cases hwe2
        · exact h3 f2 hf2 hwe2
      · intro f2 hf2 hwe2
        rcases List.mem_cons.mp hf2 with hf2 | hf2
        · subst hf2
          have hframe : docGet accEnd f2 = docGet acc f2 := by
            refine h4 f2 ?_
            intro g hg
            exact ⟨fun h => hndf (by rw [h]; exact hg), fun h => hres_f g h.symm⟩
          rw [hframe]
          exact hagree f2 (List.mem_cons_self f2 fs)
        · exact h3b f2 hf2 hwe2
      · intro x hx
        exact h4 x (fun f2 h2 => hx f2 (List.mem_cons_of_mem f h2))
    | some dv =>
      obtain ⟨p, hp⟩ := hvals f (List.mem_cons_self f fs) dv hget
      subst hp
      cases hNone : p.isNone with
      | true =>
        have hwe : willEncrypt D f = false := by simp [willEncrypt, hget, hNone]
        have hgo : encryptFieldsGo getKey curVer ts nonces A D (f :: fs) idx acc metas
            = encryptFieldsGo getKey curVer ts nonces A D fs idx acc metas := by
          simp [encryptFieldsGo, hget, hNone]
        obtain ⟨accEnd, h1, h2, h3, h3b, h4⟩ :=
          ih idx acc metas hacc hndfs hres_fs hvals_fs
            (fun f2 h2 => hagree f2 (List.mem_cons_of_mem f h2))
        refine ⟨accEnd, ?_, h2, ?_, ?_, ?_⟩
        · rw [hgo, h1, List.filter_cons_of_neg (by simp [hwe])]
        · intro f2 hf2 hwe2
          rcases List.mem_cons.mp hf2 with hf2 | hf2
          · subst hf2; rw [hwe] at hwe2; cases hwe2
          · exact h3 f2 hf2 hwe2
        · intro f2 hf2 hwe2
          rcases List.mem_cons.mp hf2 with hf2 | hf2
          · subst hf2
            have hframe : docGet accEnd f2 = docGet acc f2 := by
              refine h4 f2 ?_
              intro g hg
              exact ⟨fun h => hndf (by rw [h]; exact hg), fun h => hres_f g h.symm⟩
            rw [hframe]
            exact hagree f2 (List.mem_cons_self f2 fs)
          · exact h3b f2 hf2 hwe2
        · intro x hx
          exact h4 x (fun f2 h2 => hx f2 (List.mem_cons_of_mem f h2))
      | false =>
        have hwe : willEncrypt D f = true := by simp [willEncrypt, hget, hNone]
        set K := "_encrypted_" ++ f with hK
        set ev := encrypt_field getKey curVer ts (nonces idx) p
          (dictMerge [("field_name", JValue.str f)] A) with hev
        set acc1 := docSet acc K (DocValue.enc ev) with hacc1
        have hKf : K ≠ f := hres_f f
        have hget_acc1_f : docGet acc1 f = some (DocValue.val p) := by
          rw [hacc1, docGet_docSet_ne acc K f (DocValue.enc ev) (fun h => hKf h.symm)]
          rw [hagree f (List.mem_cons_self f fs), hget]
        obtain ⟨acc2, hdel⟩ := docDel_of_member acc1 f (DocValue.val p) hget_acc1_f
        have hacc1_nd : (docKeys acc1).Nodup := docKeys_docSet_nodup acc K _ hacc
        have hacc2_nd : (docKeys acc2).Nodup := docKeys_docDel_nodup acc1 f hacc1_nd acc2 hdel
        have hgo : encryptFieldsGo getKey curVer ts nonces A D (f :: fs) idx acc metas
            = encryptFieldsGo getKey curVer ts nonces A D fs (idx + 1) acc2
                (metas ++ [(f, ⟨true, curVer, ts⟩)]) := by
          simp only [encryptFieldsGo, hget, hNone]
          rw [← hev, ← hacc1, hdel]
          rfl
        have hagree2 : ∀ f2 ∈ fs, docGet acc2 f2 = docGet D f2 := by
          intro f2 h2
          have hf2f : f2 ≠ f := fun h => hndf (h ▸ h2)
          rw [docGet_docDel_ne acc1 f f2 hf2f acc2 hdel]
          rw [hacc1, docGet_docSet_ne acc K f2 _ (fun h => hres_fs f2 h2 f h.symm)]
          exact hagree f2 (List.mem_cons_of_mem f h2)
        obtain ⟨accEnd, h1, h2, h3, h3b, h4⟩ :=
          ih (idx + 1) acc2 (metas ++ [(f, ⟨true, curVer, ts⟩)])
            hacc2_nd hndfs hres_fs hvals_fs hagree2
        have hEndf : docGet accEnd f = none := by
          have hframe : docGet accEnd f = docGet acc2 f := by
            refine h4 f ?_
            intro g hg
            refine ⟨fun h => hndf (by rw [h]; exact hg), fun h => hres_f g h.symm⟩
          rw [hframe]
          exact docGet_docDel_self acc1 f hacc1_nd acc2 hdel
        have hEndK : docGet accEnd K = some (DocValue.enc ev) := by
          have hframe : docGet accEnd K = docGet acc2 K := by
            refine h4 K ?_
            intro g hg
            constructor
            · exact fun h => hres_fs g hg f (hK.symm.trans h)
            · intro h
              have hfg : f = g := encName_inj f g (hK.symm.trans h)
              exact hndf (by rw [hfg]; exact hg)
          rw [hframe, docGet_docDel_ne acc1 f K hKf acc2 hdel]
          rw [hacc1, docGet_docSet_self]
        have hfilter : (f :: fs).filter (fun g => willEncrypt D g)
            = f :: fs.filter (fun g => willEncrypt D g) :=
          List.filter_cons_of_pos (by simp [hwe])
        refine ⟨accEnd, ?_, h2, ?_, ?_, ?_⟩
        · rw [hgo, h1, hfilter]
          simp [List.append_assoc]
        · intro f2 hf2 hwe2
          rcases List.mem_cons.mp hf2 with hf2 | hf2
          · subst hf2
            exact ⟨hEndf, nonces idx, p, hget, hEndK⟩
          · exact h3 f2 hf2 hwe2
        · intro f2 hf2 hwe2
          rcases List.mem_cons.mp hf2 with hf2 | hf2
          · subst hf2
            rw [hwe] at hwe2
            cases hwe2
          · exact h3b f2 hf2 hwe2
        · intro x hx
          have hxf : x ≠ f ∧ x ≠ K := hx f (List.mem_cons_self f fs)
          have hframe : docGet accEnd x = docGet acc2 x :=
            h4 x (fun f2 h2 => hx f2 (List.mem_cons_of_mem f h2))
          rw [hframe, docGet_docDel_ne acc1 f x hxf.1 acc2 hdel]
          rw [hacc1, docGet_docSet_ne acc K x _ hxf.2]

theorem decryptFieldsGo_spec (getKey : String → List Nat) (ED : Doc)
    (encFields : List String) :
    ∀ (fs : List String) (acc : Doc),
    (docKeys acc).Nodup →
    fs.Nodup →
    (∀ f ∈ fs, ∀ g : String, ("_encrypted_" ++ g) ≠ f) →
    (∀ f ∈ fs, f ∈ encFields) →
    (∀ f ∈ fs, ∃ ev v, docGet ED ("_encrypted_" ++ f) = some (DocValue.enc ev) ∧
        decrypt_field getKey ev none = some v) →
    (∀ f ∈ fs, docGet acc ("_encrypted_" ++ f) = docGet ED ("_encrypted_" ++ f)) →
    ∃ accEnd, decryptFieldsGo getKey ED encFields fs acc = some accEnd ∧
      (docKeys accEnd).Nodup ∧
      (∀ f ∈ fs, ∀ ev v, docGet ED ("_encrypted_" ++ f) = some (DocValue.enc ev) →
        decrypt_field getKey ev none = some v →
        docGet accEnd f = some (DocValue.val v) ∧
        docGet accEnd ("_encrypted_" ++ f) = none) ∧
      (∀ x : String, (∀ f ∈ fs, x ≠ f ∧ x ≠ "_encrypted_" ++ f) →
        docGet accEnd x = docGet acc x) := by
  intro fs
  induction fs with
  | nil =>
    intro acc hacc _ _ _ _ _
    refine ⟨acc, ?_, hacc, ?_, ?_⟩
    · simp [decryptFieldsGo]
    · intro f hf; simp at hf
    · intro x _; rfl
  | cons f fs ih =>
    intro acc hacc hnd hres hmem hdec hagree
    have hndf : f ∉ fs := (List.nodup_cons.mp hnd).1
    have hndfs : fs.Nodup := (List.nodup_cons.mp hnd).2
    have hres_f : ∀ g : String, ("_encrypted_" ++ g) ≠ f :=
      hres f (List.mem_cons_self f fs)
    have hres_fs : ∀ f2 ∈ fs, ∀ g : String, ("_encrypted_" ++ g) ≠ f2 :=
      fun f2 h2 => hres f2 (List.mem_cons_of_mem f h2)
    have hmem_f : f ∈ encFields := hmem f (List.mem_cons_self f fs)
    obtain ⟨ev, v, hED, hv⟩ := hdec f (List.mem_cons_self f fs)
    set K := "_encrypted_" ++ f with hK
    have hKf : K ≠ f := hres_f f
    set acc1 := docSet acc f (DocValue.val v) with hacc1
    have hget_acc1_K : docGet acc1 K = some (DocValue.enc ev) := by
      rw [hacc1, docGet_docSet_ne acc f K (DocValue.val v) hKf]
      rw [hagree f (List.mem_cons_self f fs), hED]
    obtain ⟨acc2, hdel⟩ := docDel_of_member acc1 K (DocValue.enc ev) hget_acc1_K
    have hacc1_nd : (docKeys acc1).Nodup := docKeys_docSet_nodup acc f _ hacc
    have hacc2_nd : (docKeys acc2).Nodup := docKeys_docDel_nodup acc1 K hacc1_nd acc2 hdel
    have hgo : decryptFieldsGo getKey ED encFields (f :: fs) acc
        = decryptFieldsGo getKey ED encFields fs acc2 := by
      simp only [decryptFieldsGo, if_pos hmem_f, ← hK, hED, hv, ← hacc1, hdel]
    have hagree2 : ∀ f2 ∈ fs, docGet acc2 ("_encrypted_" ++ f2)
        = docGet ED ("_encrypted_" ++ f2) := by
      intro f2 h2
      have hne1 : ("_encrypted_" ++ f2) ≠ K := fun h =>
        hndf ((encName_inj f2 f (h.trans hK)).symm ▸ h2)
      have hne2 : ("_encrypted_" ++ f2) ≠ f := hres_f f2
      rw [docGet_docDel_ne acc1 K _ hne1 acc2 hdel]
      rw [hacc1, docGet_docSet_ne acc f _ _ hne2]
      exact hagree f2 (List.mem_cons_of_mem f h2)
    obtain ⟨accEnd, h1, h2, h3, h4⟩ :=
      ih acc2 hacc2_nd hndfs hres_fs
        (fun f2 h2 => hmem f2 (List.mem_cons_of_mem f h2))
        (fun f2 h2 => hdec f2 (List.mem_cons_of_mem f h2)) hagree2
    have hEndf : docGet accEnd f = some (DocValue.val v) := by
      have hframe : docGet accEnd f = docGet acc2 f := by
        refine h4 f ?_
        intro g hg
        refine ⟨fun h => hndf (by rw [h]; exact hg), fun h => hres_f g h.symm⟩
      rw [hframe, docGet_docDel_ne acc1 K f (fun h => hKf h.symm) acc2 hdel]
      rw [hacc1, docGet_docSet_self]
    have hEndK : docGet accEnd K = none := by
      have hframe : docGet accEnd K = docGet acc2 K := by
        refine h4 K ?_
        intro g hg
        constructor
        · exact fun h => hres_fs g hg f (hK.symm.trans h)
        · intro h
          have hfg : f = g := encName_inj f g (hK.symm.trans h)
          exact hndf (by rw [hfg]; exact hg)
      rw [hframe]
      exact docGet_docDel_self acc1 K hacc1_nd acc2 hdel
    refine ⟨accEnd, ?_, h2, ?_, ?_⟩
    · rw [hgo, h1]
    · intro f2 hf2 ev2 v2 hED2 hv2
      rcases List.mem_cons.mp hf2 with hf2 | hf2
      · subst hf2
        rw [hED] at hED2
        injection hED2 with hED3
        have hev2 : ev = ev2 := by cases hED3; rfl
        rw [← hev2] at hv2
        rw [hv] at hv2
        injection hv2 with hv3
        rw [← hv3]
        exact ⟨hEndf, hEndK⟩
      · exact h3 f2 hf2 ev2 v2 hED2 hv2
    · intro x hx
      have hxf : x ≠ f ∧ x ≠ K := hx f (List.mem_cons_self f fs)
      have hframe : docGet accEnd x = docGet acc2 x :=
        h4 x (fun f2 h2 => hx f2 (List.mem_cons_of_mem f h2))
      rw [hframe, docGet_docDel_ne acc1 K x hxf.2 acc2 hdel]
      rw [hacc1, docGet_docSet_ne acc f x _ hxf.1]

/-- Claim C7: encrypt_document_fields replaces each selected field that is
present with a non-null value by the reserved key "_encrypted_"+field
holding its EncryptedValue and deletes the plaintext; absent or null fields
are skipped and left untouched; the written _encryption_metadata block lists
exactly the fields actually encrypted with their key version; and
decrypt_document_fields then restores each such field under its original
name (byte-exactly for round-trip-faithful values), removes the encrypted
variant, and leaves the metadata block and all untouched fields in place.
The hypotheses state dict well-formedness: unique keys, no duplicated or
reserved selected field names, and plain values in the selected fields. -/
theorem c7_document_field_encryption (getKey : String → List Nat) (curVer : String)
    (ts : Nat) (nonces : Nat → Nat) (D : Doc) (F : List String) (A : JDict)
    (hkeys : (docKeys D).Nodup)
    (hFnd : F.Nodup)
    (hFmeta : "_encryption_metadata" ∉ F)
    (hFres : ∀ f ∈ F, ∀ g : String, ("_encrypted_" ++ g) ≠ f)
    (hvals : ∀ f ∈ F, ∀ dv, docGet D f = some dv → ∃ p, dv = DocValue.val p) :
    ∃ ed, encrypt_document_fields getKey curVer ts nonces D F A = some ed ∧
      docGet ed "_encryption_metadata" = some (DocValue.meta
        { encrypted_fields := encFieldsOf D F
          field_metadata := (encFieldsOf D F).map (fun f => (f, ⟨true, curVer, ts⟩))
          encrypted := true
          key_version := curVer }) ∧
      (∀ f ∈ F, ∀ p, docGet D f = some (DocValue.val p) → p.isNone = false →
        docGet ed f = none ∧
        ∃ n, docGet ed ("_encrypted_" ++ f)
            = some (DocValue.enc (encrypt_field getKey curVer ts n p
                (dictMerge [("field_name", JValue.str f)] A)))) ∧
      (∀ f ∈ F, willEncrypt D f = false → docGet ed f = docGet D f) ∧
      ∃ dd, decrypt_document_fields getKey ed none = some dd ∧
        (∀ f ∈ F, ∀ p, docGet D f = some (DocValue.val p) → p.isNone = false →
          docGet dd f = some (DocValue.val (deserializePlain (serializePlain p))) ∧
          (roundTripFaithful p → docGet dd f = some (DocValue.val p)) ∧
          docGet dd ("_encrypted_" ++ f) = none) ∧
        docGet dd "_encryption_metadata" = docGet ed "_encryption_metadata" ∧
        (∀ x : String, x ≠ "_encryption_metadata" →
          (∀ f ∈ F, x ≠ f ∧ x ≠ "_encrypted_" ++ f) →
          docGet dd x = docGet D x) := by
  obtain ⟨accEnd, h1, h2, h3, h3b, h4⟩ :=
    encryptFieldsGo_spec getKey curVer ts nonces A D F 0 D [] hkeys hFnd hFres hvals
      (fun f _ => rfl)
  set ed := docSet accEnd "_encryption_metadata" (DocValue.meta
    { encrypted_fields := encFieldsOf D F
      field_metadata := (encFieldsOf D F).map (fun f => (f, ⟨true, curVer, ts⟩))
      encrypted := true
      key_version := curVer }) with hed
  have hmain : encrypt_document_fields getKey curVer ts nonces D F A = some ed := by
    rw [hed]
    simp only [encrypt_document_fields, h1, List.nil_append]
    simp [encFieldsOf, List.map_map, Function.comp_def]
  have hedmeta : docGet ed "_encryption_metadata" = some (DocValue.meta
      { encrypted_fields := encFieldsOf D F
        field_metadata := (encFieldsOf D F).map (fun f => (f, ⟨true, curVer, ts⟩))
        encrypted := true
        key_version := curVer }) := by
    rw [hed]
    exact docGet_docSet_self accEnd _ _
  have hedframe : ∀ x : String, x ≠ "_encryption_metadata" →
      docGet ed x = docGet accEnd x := by
    intro x hx
    rw [hed]
    exact docGet_docSet_ne accEnd _ x _ hx
  have hednd : (docKeys ed).Nodup := by
    rw [hed]
    exact docKeys_docSet_nodup accEnd _ _ h2
  have hencAt : ∀ f ∈ F, ∀ p, docGet D f = some (DocValue.val p) → p.isNone = false →
      docGet ed f = none ∧
      ∃ n, docGet ed ("_encrypted_" ++ f)
          = some (DocValue.enc (encrypt_field getKey curVer ts n p
              (dictMerge [("field_name", JValue.str f)] A))) := by
    intro f hf p hp hpn
    have hfm : f ≠ "_encryption_metadata" := fun h => hFmeta (h ▸ hf)
    have hwe : willEncrypt D f = true := by simp [willEncrypt, hp, hpn]
    obtain ⟨hnone, n, p2, hp2, henc⟩ := h3 f hf hwe
    have hpp : p2 = p := by
      rw [hp] at hp2
      injection hp2 with h0
      injection h0 with h0
      exact h0.symm
    subst hpp
    constructor
    · rw [hedframe f hfm]
      exact hnone
    · refine ⟨n, ?_⟩
      rw [hedframe _ (encName_ne_meta f)]
      exact henc
  have hskipAt : ∀ f ∈ F, willEncrypt D f = false → docGet ed f = docGet D f := by
    intro f hf hwe
    have hfm : f ≠ "_encryption_metadata" := fun h => hFmeta (h ▸ hf)
    rw [hedframe f hfm]
    exact h3b f hf hwe
  have hEmem : ∀ f ∈ encFieldsOf D F, f ∈ F ∧ willEncrypt D f = true := by
    intro f hf
    exact List.mem_filter.mp hf
  have hEval : ∀ f ∈ encFieldsOf D F, ∃ p, docGet D f = some (DocValue.val p) ∧
      p.isNone = false := by
    intro f hf
    obtain ⟨hfF, hwe⟩ := hEmem f hf
    cases hg : docGet D f with
    | none => simp [willEncrypt, hg] at hwe
    | some dv =>
      obtain ⟨p, hp⟩ := hvals f hfF dv hg
      subst hp
      refine ⟨p, rfl, ?_⟩
      simp [willEncrypt, hg] at hwe
      exact hwe
  have hdecE : ∀ f ∈ encFieldsOf D F, ∃ ev v,
      docGet ed ("_encrypted_" ++ f) = some (DocValue.enc ev) ∧
      decrypt_field getKey ev none = some v := by
    intro f hf
    obtain ⟨hfF, _⟩ := hEmem f hf
    obtain ⟨p, hp, hpn⟩ := hEval f hf
    obtain ⟨_, n, henc⟩ := hencAt f hfF p hp hpn
    exact ⟨_, _, henc, decrypt_encrypt_field getKey curVer ts n p _⟩
  obtain ⟨dd, hd1, hd2, hd3, hd4⟩ :=
    decryptFieldsGo_spec getKey ed (encFieldsOf D F) (encFieldsOf D F) ed hednd
      (hFnd.filter _)
      (fun f hf => hFres f (hEmem f hf).1)
      (fun f hf => hf)
      hdecE
      (fun f _ => rfl)
  have hdecEq : decrypt_document_fields getKey ed none = some dd := by
    simp only [decrypt_document_fields, hedmeta, Option.getD_none]
    exact hd1
  refine ⟨ed, hmain, hedmeta, hencAt, hskipAt, dd, hdecEq, ?_, ?_, ?_⟩
  · intro f hf p hp hpn
    have hfE : f ∈ encFieldsOf D F :=
      List.mem_filter.mpr ⟨hf, by simp [willEncrypt, hp, hpn]⟩
    obtain ⟨_, n, henc⟩ := hencAt f hf p hp hpn
    obtain ⟨hddf, hddenc⟩ := hd3 f hfE _ _ henc (decrypt_encrypt_field getKey curVer ts n p _)
    refine ⟨hddf, ?_, hddenc⟩
    intro hfaith
    rw [deserialize_serialize_faithful p hfaith] at hddf
    exact hddf
  · refine hd4 "_encryption_metadata" ?_
    intro f hf
    constructor
    · exact fun h => hFmeta (by rw [h]; exact (hEmem f hf).1)
    · exact fun h => encName_ne_meta f h.symm
  · intro x hxm hxF
    have hstep1 : docGet dd x = docGet ed x :=
      hd4 x (fun f hf => hxF f (hEmem f hf).1)
    rw [hstep1, hedframe x hxm]
    exact h4 x hxF

theorem encName_ne_transcript (g : String) : ("_encrypted_" ++ g) ≠ "transcript" := by
  intro h
  have h2 : ("_encrypted_" ++ g).data = "transcript".data := congrArg String.data h
  rw [String.data_append] at h2
  have hpre : "_encrypted_".data = ['_', 'e', 'n', 'c', 'r', 'y', 'p', 't', 'e', 'd', '_'] := rfl
  rw [hpre] at h2
  have htr : "transcript".data = ['t', 'r', 'a', 'n', 's', 'c', 'r', 'i', 'p', 't'] := rfl
  rw [htr] at h2
  simp at h2

/-- Witness for c7_document_field_encryption: the end-to-end scenario of the
specification, with the document holding a transcript and a score. -/
theorem c7_document_field_encryption_witness :
    ∃ ed, encrypt_document_fields (fun _ => [5]) "v1" 3 (fun _ => 11)
        [("transcript", DocValue.val (PlainValue.pyval (JValue.str "call 555-000-1111"))),
         ("score", DocValue.val (PlainValue.pyval (JValue.num 91)))]
        ["transcript"] [("session", JValue.str "s1")] = some ed ∧
      docGet ed "_encryption_metadata" = some (DocValue.meta
        { encrypted_fields := ["transcript"]
          field_metadata := [("transcript", ⟨true, "v1", 3⟩)]
          encrypted := true
          key_version := "v1" }) ∧
      docGet ed "transcript" = none ∧
      ∃ dd, decrypt_document_fields (fun _ => [5]) ed none = some dd ∧
        docGet dd "transcript"
          = some (DocValue.val (PlainValue.pyval (JValue.str "call 555-000-1111"))) ∧
        docGet dd "_encrypted_transcript" = none ∧
        docGet dd "score" = some (DocValue.val (PlainValue.pyval (JValue.num 91))) := by
  obtain ⟨ed, hmain, hmeta, henc, hskip, dd, hdec, hrest, hmeta2, hframe⟩ :=
    c7_document_field_encryption (fun _ => [5]) "v1" 3 (fun _ => 11)
      [("transcript", DocValue.val (PlainValue.pyval (JValue.str "call 555-000-1111"))),
       ("score", DocValue.val (PlainValue.pyval (JValue.num 91)))]
      ["transcript"] [("session", JValue.str "s1")]
      (by decide) (by decide) (by decide)
      (by
        intro f hf g
        simp at hf
        subst hf
        exact encName_ne_transcript g)
      (by
        intro f hf dv h
        simp at hf
        subst hf
        have h2 : some (DocValue.val (PlainValue.pyval (JValue.str "call 555-000-1111")))
            = some dv := h
        injection h2 with h3
        exact ⟨_, h3.symm⟩)
  have hmem : "transcript" ∈ ["transcript"] := List.mem_cons_self "transcript" []
  obtain ⟨hencf, _⟩ :=
    henc "transcript" hmem (PlainValue.pyval (JValue.str "call 555-000-1111")) rfl rfl
  obtain ⟨_, hfaith, hddenc⟩ :=
    hrest "transcript" hmem (PlainValue.pyval (JValue.str "call 555-000-1111")) rfl rfl
  refine ⟨ed, hmain, hmeta, hencf, dd, hdec, hfaith (by rfl), hddenc, ?_⟩
  have hsc : docGet dd "score" = docGet
      [("transcript", DocValue.val (PlainValue.pyval (JValue.str "call 555-000-1111"))),
       ("score", DocValue.val (PlainValue.pyval (JValue.num 91)))] "score" := by
    refine hframe "score" (by decide) ?_
    intro f hf
    simp at hf
    subst hf
    exact ⟨by decide, by decide⟩
  rw [hsc]
  rfl

/-- Claim C10: decrypt_document_fields is the identity on every document
that has no _encryption_metadata key, for every field selection. -/
theorem c10_decrypt_without_metadata (getKey : String → List Nat) (D : Doc)
    (F : Option (List String)) (h : docGet D "_encryption_metadata" = none) :
    decrypt_document_fields getKey D F = some D := by
  simp [decrypt_document_fields, h]

/-- Witness for c10_decrypt_without_metadata on a concrete one-field document. -/
theorem c10_decrypt_without_metadata_witness :
    decrypt_document_fields (fun _ => []) [("a", DocValue.val (PlainValue.pyval (JValue.num 1)))]
      (some ["a"]) = some [("a", DocValue.val (PlainValue.pyval (JValue.num 1)))] :=
  c10_decrypt_without_metadata (fun _ => [])
    [("a", DocValue.val (PlainValue.pyval (JValue.num 1)))] (some ["a"]) rfl

/-- Whether a key string starts with an underscore (key.startswith of the
source, which exempts metadata fields from filtering). -/
def strHeadUnderscore (s : String) : Bool :=
  match s.data with
  | [] => false
  | c :: _ => c = '_'

/-- The explicit redaction marker of filter_response_by_role. -/
def redactedMarker : JValue := JValue.str "[REDACTED - Insufficient permissions]"

/-- Model of get_allowed_fields_for_role (rbac.py): the per-role
field-visibility table; sets are lists, membership is what matters. -/
def get_allowed_fields_for_role (role : String) : List String :=
  if role = "reader" then
    ["id", "user_id", "consent_id", "timestamp", "created_at",
     "anonymized_answer", "score", "feedback", "status"]
  else if role = "analyst" then
    ["id", "user_id", "consent_id", "timestamp", "created_at",
     "anonymized_answer", "redacted_text", "tokens", "analysis",
     "score", "feedback", "facial_analysis", "status"]
  else if role = "admin" then ["*"]
  else if role = "system" then ["*"]
  else []

/-- The highest-role loop of filter_response_by_role: system wins and stops
the scan, admin beats analyst beats the reader default. -/
def highestRoleGo : List String → String → String
  | [], h => h
  | r :: rs, h =>
    if r = "system" then "system"
    else if r = "admin" then highestRoleGo rs "admin"
    else if r = "analyst" ∧ h = "reader" then highestRoleGo rs "analyst"
    else highestRoleGo rs h

/-- Model of filter_response_by_role (rbac.py lines 284-316). -/
def filter_response_by_role (data : List (String × JValue)) (user_roles : List String) :
    List (String × JValue) :=
  let highest_role := highestRoleGo user_roles "reader"
  let allowed_fields := get_allowed_fields_for_role highest_role
  if "*" ∈ allowed_fields then data
  else
    data.map (fun p =>
      if p.1 ∈ allowed_fields ∨ strHeadUnderscore p.1 = true then p
      else (p.1, redactedMarker))

/-- Claim C3 is false as stated: keys starting with an underscore pass
through unfiltered, so a reader-filtered response can contain the original
value of a field outside the reader's allowed set. -/
theorem c3_filter_response_counterexample :
    filter_response_by_role [("_vault_ref", JValue.str "secret")] ["reader"]
      = [("_vault_ref", JValue.str "secret")] ∧
    ("_vault_ref" ∈ get_allowed_fields_for_role "reader" → False) ∧
    (JValue.str "secret" = redactedMarker → False) := by
  refine ⟨rfl, by decide, ?_⟩
  intro h
  simp [redactedMarker] at h

/-- Claim C3 amended: filter_response_by_role keeps every key of the input
(never omits one); with a wildcard allowed set (admin or system highest
role) it returns the data unchanged; every key outside the highest role's
allowed set whose name does not start with an underscore is replaced by the
explicit redaction marker; underscore-prefixed keys pass through with their
original value; every output value is either the marker or an original
entry; and with the bottom role (reader) any unredacted value belongs to a
key in the reader's allowed set or to an underscore-prefixed key. -/
theorem c3_filter_response (data : List (String × JValue)) (user_roles : List String) :
    (filter_response_by_role data user_roles).map Prod.fst = data.map Prod.fst ∧
    ("*" ∈ get_allowed_fields_for_role (highestRoleGo user_roles "reader") →
      filter_response_by_role data user_roles = data) ∧
    ("*" ∉ get_allowed_fields_for_role (highestRoleGo user_roles "reader") →
      ∀ p ∈ data, p.1 ∉ get_allowed_fields_for_role (highestRoleGo user_roles "reader") →
        strHeadUnderscore p.1 = false →
        (p.1, redactedMarker) ∈ filter_response_by_role data user_roles) ∧
    (∀ q ∈ filter_response_by_role data user_roles, q ∈ data ∨ q.2 = redactedMarker) ∧
    (∀ q ∈ filter_response_by_role data ["reader"], q.2 ≠ redactedMarker →
      q.1 ∈ get_allowed_fields_for_role "reader" ∨ strHeadUnderscore q.1 = true) := by
  refine ⟨?_, ?_, ?_, ?_, ?_⟩
  · by_cases hw : "*" ∈ get_allowed_fields_for_role (highestRoleGo user_roles "reader")
    · simp [filter_response_by_role, hw]
    · simp only [filter_response_by_role, if_neg hw, List.map_map]
      induction data with
      | nil => rfl
      | cons p ps ih =>
        simp only [List.map_cons, List.cons.injEq]
        refine ⟨?_, ih⟩
        by_cases hp : p.1 ∈ get_allowed_fields_for_role (highestRoleGo user_roles "reader")
            ∨ strHeadUnderscore p.1 = true
        · simp [hp]
        · simp [hp]
  · intro hw
    simp [filter_response_by_role, hw]
  · intro hw p hp hna hnu
    have hcond : ¬ (p.1 ∈ get_allowed_fields_for_role (highestRoleGo user_roles "reader")
        ∨ strHeadUnderscore p.1 = true) := by
      rintro (h | h)
      · exact hna h
      · rw [hnu] at h; cases h
    simp only [filter_response_by_role, if_neg hw]
    have h2 := List.mem_map_of_mem (fun q : String × JValue =>
      if q.1 ∈ get_allowed_fields_for_role (highestRoleGo user_roles "reader")
          ∨ strHeadUnderscore q.1 = true then q
      else (q.1, redactedMarker)) hp
    simpa [hcond] using h2
  · intro q hq
    by_cases hw : "*" ∈ get_allowed_fields_for_role (highestRoleGo user_roles "reader")
    · simp only [filter_response_by_role, if_pos hw] at hq
      exact Or.inl hq
    · simp only [filter_response_by_role, if_neg hw, List.mem_map] at hq
      obtain ⟨p, hp, hfp⟩ := hq
      by_cases hc : p.1 ∈ get_allowed_fields_for_role (highestRoleGo user_roles "reader")
          ∨ strHeadUnderscore p.1 = true
      · rw [if_pos hc] at hfp
        exact Or.inl (hfp ▸ hp)
      · rw [if_neg hc] at hfp
        right
        rw [← hfp]
  · intro q hq hqm
    have hro : highestRoleGo ["reader"] "reader" = "reader" := rfl
    have hw : "*" ∉ get_allowed_fields_for_role (highestRoleGo ["reader"] "reader") := by
      rw [hro]; decide
    simp only [filter_response_by_role, if_neg hw, List.mem_map] at hq
    obtain ⟨p, hp, hfp⟩ := hq
    by_cases hc : p.1 ∈ get_allowed_fields_for_role (highestRoleGo ["reader"] "reader")
        ∨ strHeadUnderscore p.1 = true
    · rw [if_pos hc] at hfp
      rw [← hfp]
      rw [hro] at hc
      exact hc
    · rw [if_neg hc] at hfp
      exfalso
      apply hqm
      rw [← hfp]

/-- Witness for c3_filter_response: a reader sees the score, the analysis
field is replaced by the marker, and an admin gets the data unchanged. -/
theorem c3_filter_response_witness :
    ("analysis", redactedMarker) ∈
      filter_response_by_role [("score", JValue.num 5), ("analysis", JValue.str "x")] ["reader"] ∧
    filter_response_by_role [("score", JValue.num 5), ("analysis", JValue.str "x")] ["admin"]
      = [("score", JValue.num 5), ("analysis", JValue.str "x")] :=
  ⟨((c3_filter_response [("score", JValue.num 5), ("analysis", JValue.str "x")]
        ["reader"]).2.2.1 (by decide)
      ("analysis", JValue.str "x") (by simp) (by decide) (by decide)),
   ((c3_filter_response [("score", JValue.num 5), ("analysis", JValue.str "x")]
        ["admin"]).2.1 (by decide))⟩

/-- SHA-256 modelled as an injective (ideally collision-free) tagging
function on strings. -/
def sha256 (s : String) : String := "#" ++ s

/-- One audit log entry as stored (Flask request fields ip/user_agent are
constants of the environment and are omitted; they do not enter the hash). -/
structure AuditEntry where
  actor_id : String
  actor_roles : List String
  action : String
  target_collection : Option String
  target_id : Option String
  fields_accessed : List String
  justification : Option String
  success : Bool
  timestamp : Nat
  entry_hash : String
  prev_hash : Option String
deriving DecidableEq, Repr

/-- Python f-string rendering of the stored target_id: the key is present in
the dict, so log_entry.get("target_id", "") returns the stored value and a
stored None prints as "None". -/
def optStr : Option String → String
  | some s => s
  | none => "None"

/-- The audit logger state: the stored collection in insertion order (write
timestamps are strictly increasing in every run considered, so this is also
the chronological order the store returns) plus the in-memory _last_hash. -/
structure AuditLogger where
  entries : List AuditEntry
  lastHash : Option String
deriving Repr

/-- A freshly initialized logger (empty store, _last_hash = None). -/
def AuditLogger.fresh : AuditLogger := ⟨[], none⟩

/-- Model of AuditLogger._compute_hash: concatenates the isoformat
timestamp, actor, action, target and the logger's current in-memory
_last_hash (self._last_hash or ""), then hashes. -/
def AuditLogger.compute_hash (lastHash : Option String) (ts : Nat)
    (actor_id action : String) (target_id : Option String) : String :=
  sha256 (isoformat ts ++ actor_id ++ action ++ optStr target_id ++ lastHash.getD "")

/-- Model of AuditLogger.log: build the entry, hash it against the in-memory
last hash, append it and advance the last hash.  ts is the utcnow draw. -/
def AuditLogger.log (st : AuditLogger) (action : String) (success : Bool)
    (actor_id : Option String) (actor_roles : Option (List String))
    (target_collection target_id : Option String)
    (fields_accessed : Option (List String)) (justification : Option String)
    (ts : Nat) : AuditLogger × AuditEntry :=
  let actor := actor_id.getD "anonymous"
  let entry_hash := AuditLogger.compute_hash st.lastHash ts actor action target_id
  let e : AuditEntry :=
    { actor_id := actor
      actor_roles := actor_roles.getD []
      action := action
      target_collection := target_collection
      target_id := target_id
      fields_accessed := fields_accessed.getD []
      justification := justification
      success := success
      timestamp := ts
      entry_hash := entry_hash
      prev_hash := st.lastHash }
  ({ entries := st.entries ++ [e], lastHash := some entry_hash }, e)

/-- The verification walk of verify_chain_integrity: prev is the walk's
previous stored hash, but the recomputation calls _compute_hash, which uses
the logger's current in-memory lastHash for every entry. -/
def AuditLogger.verifyGo (lastHash : Option String) :
    Option String → List AuditEntry → Bool
  | _, [] => true
  | prev, e :: es =>
    if e.prev_hash ≠ prev then false
    else if AuditLogger.compute_hash lastHash e.timestamp e.actor_id e.action e.target_id
        ≠ e.entry_hash then false
    else AuditLogger.verifyGo lastHash (some e.entry_hash) es

/-- Model of AuditLogger.verify_chain_integrity (audit_logger.py 325-352). -/
def AuditLogger.verify_chain_integrity (st : AuditLogger) (limit : Nat) : Bool :=
  AuditLogger.verifyGo st.lastHash none (st.entries.take limit)

/-- Claim C1: the code is wrong.  A freshly built, untampered two-entry
chain has correct prev_hash links (each entry's prev_hash is the previous
entry's entry_hash), yet verify_chain_integrity returns false, because
_compute_hash mixes the logger's current in-memory _last_hash into every
recomputed hash instead of the walk's previous hash. -/
theorem c1_verify_chain_integrity_bug :
    let st1 : AuditLogger := (AuditLogger.log AuditLogger.fresh "read" true (some "alice")
      (some ["admin"]) (some "c") (some "t1") (some ["f"]) none 0).1
    let st2 : AuditLogger := (AuditLogger.log st1 "write" true (some "alice") (some ["admin"])
      (some "c") (some "t2") (some ["f"]) none 1).1
    AuditLogger.verify_chain_integrity st2 1000 = false ∧
    st2.entries.map AuditEntry.prev_hash
      = none :: (st2.entries.map (fun e => some e.entry_hash)).dropLast := by
  intro st1 st2
  exact ⟨rfl, rfl⟩

/-- The justification validity test of log_decrypt: absent, empty, or
stripped length below 10. -/
def pyStrip (s : String) : String :=
  String.mk (((s.data.dropWhile jsonIsWs).reverse.dropWhile jsonIsWs).reverse)

/-- Python condition `not justification or len(justification.strip()) < 10`. -/
def badJustification (j : Option String) : Bool :=
  match j with
  | none => true
  | some s => s = "" || (pyStrip s).length < 10

/-- Model of AuditLogger.log_decrypt: validates the justification before any
write; an .error result is the raised ValueError (nothing is written). -/
def AuditLogger.log_decrypt (st : AuditLogger) (target_collection target_id : String)
    (fields_decrypted : List String) (justification : Option String) (success : Bool)
    (ts : Nat) : Except String (AuditLogger × AuditEntry) :=
  if badJustification justification then
    .error "Decryption requires detailed justification (min 10 chars)"
  else
    .ok (st.log "decrypt" success none none (some target_collection) (some target_id)
      (some fields_decrypted) justification ts)

/-- Model of AuditLogger.log_delete: no justification validation at all;
the optional reason is stored as the justification. -/
def AuditLogger.log_delete (st : AuditLogger) (target_collection target_id : String)
    (reason : Option String) (success : Bool) (ts : Nat) : AuditLogger × AuditEntry :=
  st.log "delete" success none none (some target_collection) (some target_id)
    none reason ts

/-- Claim C4 is false as stated for deletions: log_delete with an absent
justification raises no error and writes the entry. -/
theorem c4_justification_counterexample :
    (AuditLogger.fresh.log_delete "sessions" "t1" none true 0).1.entries.length = 1 ∧
    (AuditLogger.fresh.log_delete "sessions" "t1" none true 0).2.justification = none ∧
    (AuditLogger.fresh.log_delete "sessions" "t1" none true 0).2.action = "delete" := by
  refine ⟨rfl, rfl, rfl⟩

/-- Claim C4 amended: only the decryption action enforces the justification
rule — log_decrypt raises a ValueError and writes nothing when the supplied
justification is absent, empty, or shorter than 10 characters after
stripping, and writes the entry otherwise; log_delete performs no
justification validation and writes its entry even with an absent reason. -/
theorem c4_justification (st : AuditLogger) (tc ti : String) (fields : List String)
    (j : Option String) (success : Bool) (ts : Nat) :
    (badJustification j = true →
      AuditLogger.log_decrypt st tc ti fields j success ts
        = .error "Decryption requires detailed justification (min 10 chars)") ∧
    (badJustification j = false →
      ∃ st2 e, AuditLogger.log_decrypt st tc ti fields j success ts = .ok (st2, e) ∧
        st2.entries = st.entries ++ [e] ∧ e.action = "decrypt" ∧ e.justification = j) ∧
    (∃ st2 e, AuditLogger.log_delete st tc ti j success ts = (st2, e) ∧
      st2.entries = st.entries ++ [e] ∧ e.action = "delete" ∧ e.justification = j) := by
  refine ⟨?_, ?_, ?_⟩
  · intro hbad
    simp [AuditLogger.log_decrypt, hbad]
  · intro hgood
    refine ⟨(st.log "decrypt" success none none (some tc) (some ti) (some fields) j ts).1,
      (st.log "decrypt" success none none (some tc) (some ti) (some fields) j ts).2,
      ?_, rfl, rfl, rfl⟩
    simp [AuditLogger.log_decrypt, hgood]
  · exact ⟨(st.log "delete" success none none (some tc) (some ti) none j ts).1,
      (st.log "delete" success none none (some tc) (some ti) none j ts).2,
      rfl, rfl, rfl, rfl⟩

/-- Witness for c4_justification: a short justification is rejected, a
detailed one is written, and a delete without reason is written. -/
theorem c4_justification_witness :
    (AuditLogger.fresh.log_decrypt "sessions" "t1" ["transcript"] (some "why") true 0
      = .error "Decryption requires detailed justification (min 10 chars)") ∧
    (∃ st2 e, AuditLogger.fresh.log_decrypt "sessions" "t1" ["transcript"]
        (some "support ticket 4711 review") true 0 = .ok (st2, e) ∧
      st2.entries = AuditLogger.fresh.entries ++ [e] ∧ e.action = "decrypt" ∧
      e.justification = some "support ticket 4711 review") ∧
    (∃ st2 e, AuditLogger.fresh.log_delete "sessions" "t1" none true 0 = (st2, e) ∧
      st2.entries = AuditLogger.fresh.entries ++ [e] ∧ e.action = "delete" ∧
      e.justification = none) :=
  ⟨(c4_justification AuditLogger.fresh "sessions" "t1" ["transcript"] (some "why")
      true 0).1 (by decide),
   (c4_justification AuditLogger.fresh "sessions" "t1" ["transcript"]
      (some "support ticket 4711 review") true 0).2.1 (by decide),
   (c4_justification AuditLogger.fresh "sessions" "t1" ["transcript"] none
      true 0).2.2⟩

/-- LocalKeyStore state: the per-version key files on disk plus the stream
of keys AESGCM.generate_key would produce. -/
structure LocalKeyStore where
  files : List (String × List Nat)
  rng : List (List Nat)
deriving Repr

/-- Key-file lookup by version. -/
def alistLookup : List (String × List Nat) → String → Option (List Nat)
  | [], _ => none
  | (k, v) :: ps, key => if k = key then some v else alistLookup ps key

/-- Model of LocalKeyStore.get_data_key (key_store.py 103-133): if no key
file exists for the version, draw a fresh key, persist it, then read the
file back; otherwise read the existing file. -/
def LocalKeyStore.get_data_key (st : LocalKeyStore) (key_version : String) :
    List Nat × LocalKeyStore :=
  match alistLookup st.files key_version with
  | some k => (k, st)
  | none =>
    let k := st.rng.headD []
    (k, { files := st.files ++ [(key_version, k)], rng := st.rng.tail })

/-- Model of AWSKMSKeyStore.get_data_key (key_store.py 190-200):
kms_client.generate_data_key returns a fresh key on every call; the
key_version argument is never used. -/
def AWSKMSKeyStore.get_data_key (rng : List (List Nat)) (_key_version : String) :
    List Nat × List (List Nat) :=
  (rng.headD [], rng.tail)

/-- Model of GCPKMSKeyStore.get_data_key (key_store.py 256-259):
secrets.token_bytes(32), fresh random bytes on every call; the key_version
argument is never used. -/
def GCPKMSKeyStore.get_data_key (rng : List (List Nat)) (_key_version : String) :
    List Nat × List (List Nat) :=
  (rng.headD [], rng.tail)

theorem alistLookup_append_self (l : List (String × List Nat)) (v : String) (k : List Nat) :
    alistLookup l v = none → alistLookup (l ++ [(v, k)]) v = some k := by
  induction l with
  | nil => intro _; simp [alistLookup]
  | cons p ps ih =>
    obtain ⟨k0, v0⟩ := p
    intro h
    by_cases hk : k0 = v
    · simp [alistLookup, hk] at h
    · simp only [alistLookup, if_neg hk] at h
      simp only [List.cons_append, alistLookup, if_neg hk]
      exact ih h

/-- Claim C5: the code is wrong for the KMS backings.  The local file store
is deterministic per version — a second get_data_key call with no
intervening rotation returns the same bytes — but the AWS and GCP stores
ignore the version and hand out a fresh random key on every call, so two
calls with the same version return different bytes whenever the KMS
produces distinct keys (as it does), and data encrypted under a version can
never be decrypted with the key obtained later for that version. -/
theorem c5_get_data_key_bug :
    (∀ (st : LocalKeyStore) (v : String),
      (((st.get_data_key v).2).get_data_key v).1 = (st.get_data_key v).1) ∧
    (AWSKMSKeyStore.get_data_key [[0], [1]] "v1").1 = [0] ∧
    (AWSKMSKeyStore.get_data_key (AWSKMSKeyStore.get_data_key [[0], [1]] "v1").2 "v1").1
      = [1] ∧
    (GCPKMSKeyStore.get_data_key [[0], [1]] "v1").1 = [0] ∧
    (GCPKMSKeyStore.get_data_key (GCPKMSKeyStore.get_data_key [[0], [1]] "v1").2 "v1").1
      = [1] ∧
    ([0] : List Nat) ≠ [1] := by
  refine ⟨?_, rfl, rfl, rfl, rfl, by decide⟩
  intro st v
  cases hl : alistLookup st.files v with
  | some k => simp [LocalKeyStore.get_data_key, hl]
  | none =>
    simp only [LocalKeyStore.get_data_key, hl]
    rw [alistLookup_append_self st.files v (st.rng.headD []) hl]

/-- PII vault storage modes. -/
inductive PIIStorageMode where
  | never_store_original
  | store_encrypted_with_key
deriving DecidableEq, Repr

/-- The vault instance: its loaded 32-byte key and configured key version. -/
structure PIIVault where
  key : List Nat
  key_version : String
deriving Repr

/-- A stored vault entry (base64 transport elided as usual). -/
structure VaultEntry where
  id : Nat
  vault_ciphertext : AEADCiphertext
  nonce : Nat
  key_version : String
  associated_data : Option JDict
  created_at : Nat
  expires_at : Nat
deriving Repr

/-- Model of PIIVault.encrypt_pii: disabled mode escrows nothing; otherwise
AES-GCM encrypt with aad = json.dumps(associated_data or \x7b\x7d,
sort_keys=True) and expiry created_at + TTL; the stored associated_data is
the original argument, possibly None. -/
def PIIVault.encrypt_pii (vault : PIIVault) (mode : PIIStorageMode)
    (id nonce ts ttl : Nat) (original_text : String)
    (associated_data : Option JDict) : Option VaultEntry :=
  if mode = .never_store_original then none
  else
    let aad := aadSerialize (associated_data.getD [])
    some { id := id
           vault_ciphertext := aesgcmEncrypt vault.key nonce (.utf8 original_text) aad
           nonce := nonce
           key_version := vault.key_version
           associated_data := associated_data
           created_at := ts
           expires_at := ts + ttl }

/-- Serialization of the stored associated_data at decryption time:
vault_entry.get("associated_data", ...) returns the stored value because the
key is present, and json.dumps(None) is "null" whereas encryption serialized
associated_data or the empty dict. -/
def storedAadSerialize : Option JDict → String
  | some d => aadSerialize d
  | none => "null"

/-- Model of PIIVault.decrypt_pii; .error is the raised exception. -/
def PIIVault.decrypt_pii (vault : PIIVault) (vault_entry : VaultEntry) :
    Except String String :=
  if vault_entry.key_version ≠ vault.key_version then
    .error "Key version mismatch"
  else
    match aesgcmDecrypt vault.key vault_entry.nonce vault_entry.vault_ciphertext
        (storedAadSerialize vault_entry.associated_data) with
    | some pt =>
      match utf8Decode pt with
      | some s => .ok s
      | none => .error "unicode"
    | none => .error "InvalidTag"

/-- Model of retrieve_encrypted_pii (pii_vault.py 255-286): look the entry
up, refuse if strictly past expires_at, decrypt; every failure path returns
none ("unavailable"), never a hard error. -/
def retrieve_encrypted_pii (db : Nat → Option VaultEntry) (vault : PIIVault)
    (vault_id : Nat) (now : Nat) : Option String :=
  match db vault_id with
  | none => none
  | some entry =>
    if entry.expires_at < now then none
    else
      match vault.decrypt_pii entry with
      | .ok s => some s
      | .error _ => none

/-- Claim C8: the code is wrong for entries escrowed without associated
data.  An entry escrowed with an associated-data dict behaves as claimed
(plaintext strictly before expiry, unavailable strictly after, unavailable
on key-version mismatch), but an entry escrowed with associated_data = None
is never retrievable, even before expiry with the matching key version:
encryption authenticates "\x7b\x7d" while decryption reconstructs "null". -/
theorem c8_vault_retrieve_bug :
    let vault : PIIVault := ⟨[9], "v1"⟩
    let vault2 : PIIVault := ⟨[9], "v2"⟩
    let dbD : Nat → Option VaultEntry := fun i =>
      if i = 1 then
        vault.encrypt_pii .store_encrypted_with_key 1 2 0 7 "orig"
          (some [("session_id", JValue.str "s1")])
      else none
    let dbN : Nat → Option VaultEntry := fun i =>
      if i = 1 then vault.encrypt_pii .store_encrypted_with_key 1 2 0 7 "orig" none
      else none
    retrieve_encrypted_pii dbD vault 1 3 = some "orig" ∧
    retrieve_encrypted_pii dbD vault 1 8 = none ∧
    retrieve_encrypted_pii dbD vault2 1 3 = none ∧
    retrieve_encrypted_pii dbN vault 1 3 = none := by
  intro vault vault2 dbD dbN
  exact ⟨rfl, rfl, rfl, rfl⟩

/-- The value type of the redact_pii metadata dict. -/
inductive MetaVal where
  | num (n : Nat)
  | table (m : List (String × String))
deriving DecidableEq, Repr

/-- Metadata dict lookup. -/
def lookupMeta : List (String × MetaVal) → String → Option MetaVal
  | [], _ => none
  | (k, v) :: ps, key => if k = key then some v else lookupMeta ps key

/-- Model of PIIRedactor.redact_pii at its empty/None guard (pii_redactor.py
91-92): a falsy input returns ("", a dict holding only total_redactions = 0)
before any per-category counters or placeholder map are created.  The
behaviour on non-empty text is an arbitrary parameter, so every theorem
below holds for any behaviour of the unmodelled regex/NER passes. -/
def redact_pii (fullPipeline : String → String × List (String × MetaVal))
    (text : Option String) : String × List (String × MetaVal) :=
  match text with
  | none => ("", [("total_redactions", .num 0)])
  | some s => if s = "" then ("", [("total_redactions", .num 0)]) else fullPipeline s

/-- Claim C9 is false as stated: on empty input redact_pii returns metadata
holding only total_redactions = 0 — there is no per-category zero count
(e.g. no "emails" key) and no "placeholders" map at all. -/
theorem c9_empty_input_counterexample :
    redact_pii (fun s => (s, [])) (some "") = ("", [("total_redactions", MetaVal.num 0)]) ∧
    lookupMeta (redact_pii (fun s => (s, [])) (some "")).2 "emails" = none ∧
    lookupMeta (redact_pii (fun s => (s, [])) (some "")).2 "placeholders" = none := by
  exact ⟨rfl, rfl, rfl⟩

/-- Claim C9 amended: for empty or null input, redact_pii returns the empty
string together with metadata containing only total_redactions = 0; no
per-category counts and no placeholder-to-category map are included. -/
theorem c9_empty_input (fullPipeline : String → String × List (String × MetaVal))
    (text : Option String) (h : text = none ∨ text = some "") :
    redact_pii fullPipeline text = ("", [("total_redactions", MetaVal.num 0)]) := by
  rcases h with h | h
  · subst h; rfl
  · subst h; rfl

/-- Witness for c9_empty_input at the empty string. -/
theorem c9_empty_input_witness :
    redact_pii (fun s => (s, [("emails", MetaVal.num 1)])) (some "")
      = ("", [("total_redactions", MetaVal.num 0)]) :=
  c9_empty_input (fun s => (s, [("emails", MetaVal.num 1)])) (some "") (Or.inr rfl)
